import Mathlib

/-!
Verification development for the `lang_processor` pipeline
(`src/lang_processor.py`).

The program maintains a localized string table: it aggregates
source-locale (`en_us`) and target-locale (`ja_jp`) key/value tables from
archives, diffs them to obtain an untranslated backlog, drives that
backlog through an external translation collaborator in fixed-size
chunks with per-chunk checkpoints, and merges the translated output into
a published resource-pack table.

Python `dict`s (insertion-ordered, unique keys, string keys and values)
are embedded as association lists `List (String × String)`; `dict.update`
is embedded as `dictUpdate` (in-place value replacement for existing
keys, appending new keys in overlay order); `dict(pairs)` as
`dictOfPairs`.  The external translation collaborator is abstracted as an
oracle giving, per chunk index, one of the three outcomes the code
distinguishes in `_call_gemini_cli`: a parsed table, a response with no
parseable JSON payload (the function returns the input unchanged), or a
raised failure (non-zero process exit or any other exception).
-/

/-- A Python `dict[str, str]`: insertion-ordered association list.  Real
dicts additionally have pairwise-distinct keys; theorems that need this
take it as a `List.Nodup` hypothesis on `tableKeys`. -/
abbrev Table := List (String × String)

/-- The keys of a table, in insertion order (Python `dict.keys()`). -/
def tableKeys (t : Table) : List String := t.map Prod.fst

/-- Python `t[k]` / `k in t`: the value at the first (for a real dict,
the only) occurrence of key `k`. -/
def lookupTable (t : Table) (k : String) : Option String :=
  (t.find? (fun p => p.1 == k)).map Prod.snd

/-- Python `t[k] = v`: replace the value at `k` in place if the key is
present, otherwise append the new binding. -/
def setKey (t : Table) (k v : String) : Table :=
  if t.any (fun p => p.1 == k) then
    t.map (fun p => if p.1 == k then (k, v) else p)
  else
    t ++ [(k, v)]

/-- Python `base.update(overlay)`: fold every binding of `overlay` into
`base` with `setKey`.  This is the program's `merge`: it is used both in
`auto_translate` (`translated_data.update(...)`) and in
`build_resource_pack` (`base_translations.update(newly_translated_data)`). -/
def dictUpdate (base overlay : Table) : Table :=
  overlay.foldl (fun acc p => setKey acc p.1 p.2) base

/-- Python `dict(pairs)`: build a dict from a pair list, later bindings
winning.  Identical to updating the empty dict. -/
def dictOfPairs (l : List (String × String)) : Table :=
  dictUpdate [] l

/-- Code-point-wise lexicographic `≤` on character lists: the order
Python's `sorted` uses on strings. -/
def charsLe : List Char → List Char → Bool
  | [], _ => true
  | _ :: _, [] => false
  | a :: as, b :: bs => if a < b then true else if b < a then false else charsLe as bs

/-- Lexicographic `≤` on strings by code points. -/
def strLeb (a b : String) : Bool := charsLe a.data b.data

/-- `strLeb` as a decidable, total, transitive relation for sorting. -/
def strLe (a b : String) : Prop := strLeb a b = true

instance : DecidableRel strLe := fun a b =>
  inferInstanceAs (Decidable (strLeb a b = true))

/-- Key-wise comparison used to embed Python's `sorted` on the items of
a dict.  Python compares `(key, value)` tuples lexicographically; since
a dict's keys are pairwise distinct, the key alone decides the order. -/
def keyLe (p q : String × String) : Prop := strLe p.1 q.1

instance : DecidableRel keyLe := fun p q =>
  inferInstanceAs (Decidable (strLeb p.1 q.1 = true))

/-- `charsLe` is total. -/
theorem charsLe_total : ∀ as bs : List Char, charsLe as bs = true ∨ charsLe bs as = true
  | [], _ => Or.inl rfl
  | _ :: _, [] => Or.inr rfl
  | a :: as, b :: bs => by
    rcases lt_trichotomy a b with h | h | h
    · exact Or.inl (by simp [charsLe, h])
    · subst h
      rcases charsLe_total as bs with h2 | h2
      · exact Or.inl (by simp [charsLe, h2])
      · exact Or.inr (by simp [charsLe, h2])
    · exact Or.inr (by simp [charsLe, h])

/-- `charsLe` is transitive. -/
theorem charsLe_trans : ∀ as bs cs : List Char,
    charsLe as bs = true → charsLe bs cs = true → charsLe as cs = true
  | [], _, _ => fun _ _ => rfl
  | _ :: _, [], _ => by simp [charsLe]
  | _ :: _, _ :: _, [] => by simp [charsLe]
  | a :: as, b :: bs, c :: cs => by
    simp only [charsLe]
    rcases lt_trichotomy a b with hab | hab | hab <;>
      rcases lt_trichotomy b c with hbc | hbc | hbc <;>
        simp_all [lt_asymm, lt_irrefl] <;>
          first
            | simp [lt_trans hab hbc]
            | (intro h1 h2; exact charsLe_trans as bs cs h1 h2)

instance : IsTotal (String × String) keyLe :=
  ⟨fun p q => charsLe_total p.1.data q.1.data⟩

instance : IsTrans (String × String) keyLe :=
  ⟨fun _ _ _ h h2 => charsLe_trans _ _ _ h h2⟩

instance : IsTotal String strLe :=
  ⟨fun a b => charsLe_total a.data b.data⟩

instance : IsTrans String strLe :=
  ⟨fun _ _ _ h h2 => charsLe_trans _ _ _ h h2⟩

/-- Python `sorted(list_of_keys)` on a list of (distinct) strings. -/
def sortStrings (ks : List String) : List String :=
  List.insertionSort strLe ks

/-- `extract_lang_diff`, lines 177-178: the first-stage diff.
`diff_keys = set(all_en_us.keys()) - set(all_ja_jp.keys())` followed by
`{key: all_en_us[key] for key in sorted(list(diff_keys)) if key in all_en_us}`.
Note that only key *absence* from `ja` is tested; present-but-empty
values in `ja` are not examined here. -/
def extract_lang_diff (en ja : Table) : Table :=
  (sortStrings (((tableKeys en).filter
      (fun k => !(tableKeys ja).contains k)).dedup)).filterMap
    (fun k => (lookupTable en k).map (fun v => (k, v)))

/-- `find_untranslated`, lines 213-215: the second-stage diff against the
published table.  `already_translated_keys = {k for k, v in
translated.items() if v}` (Python truthiness: non-empty string), then
`set(all_diff.keys()) - already_translated_keys`, sorted, mapped back to
`all_diff`'s values. -/
def find_untranslated (all_diff translated : Table) : Table :=
  (sortStrings (((tableKeys all_diff).filter
      (fun k => !((translated.filter (fun p => p.2 != "")).map
        Prod.fst).contains k)).dedup)).filterMap
    (fun k => (lookupTable all_diff k).map (fun v => (k, v)))

/-- `_create_chunks` core loop, fuel-indexed so it computes by kernel
reduction: `chunks = [dict(items[i:i + size]) for i in range(0, len(items),
size)]`.  Each step takes the next `n` items (`x :: xs.take (n - 1)` is
`(x :: xs).take n` for `n ≥ 1`) and recurses on the rest.  The fuel is
always instantiated with the list length, which suffices because every
step consumes at least one item. -/
def chunksGo (n : Nat) : Nat → List (String × String) → List Table
  | _, [] => []
  | 0, l => [l]
  | fuel + 1, x :: xs => (x :: xs.take (n - 1)) :: chunksGo n fuel (xs.drop (n - 1))

/-- `_create_chunks`, lines 286-291: partition a backlog's items into
ordered contiguous slices of size `chunkSize` (the last possibly
shorter). -/
def create_chunks (chunkSize : Nat) (data : Table) : List Table :=
  chunksGo chunkSize data.length data

/-- The three outcomes `_call_gemini_cli` distinguishes, per chunk: a
structured payload that parses to a table; a response carrying no
parseable JSON payload (including `json.JSONDecodeError`), where the
function returns its input unchanged; and a raised failure (non-zero
process exit re-raised as `RuntimeError`, or any other exception). -/
inductive GeminiResult where
  | success : Table → GeminiResult
  | parseFail : GeminiResult
  | procFail : GeminiResult
deriving DecidableEq

/-- `_call_gemini_cli`, lines 293-333, at its interface: given the chunk
passed as `input_data` and the collaborator's behaviour, either return a
table normally or raise (`.error`). -/
def call_gemini_cli (input_data : Table) : GeminiResult → Except Unit Table
  | .success t => .ok t
  | .parseFail => .ok input_data
  | .procFail => .error ()

/-- Mutable state of the `auto_translate` loop: the cumulative
`translated_data` dict and the checkpoint files written so far
(`progress_<i>.json`, recorded as index/content pairs). -/
structure RunState where
  cumulative : Table
  checkpoints : List (Nat × Table)
deriving DecidableEq

/-- One iteration of the `auto_translate` loop body (lines 261-280) for
chunk `i`.  The `try` branch updates the cumulative dict with the
returned table and writes checkpoint `i` (when the write itself
succeeds, `writeOk i`); the `except` branch updates the cumulative dict
with the chunk's original data and writes no checkpoint. -/
def processChunk (oracle : Nat → GeminiResult) (writeOk : Nat → Bool)
    (i : Nat) (chunk : Table) (st : RunState) : RunState :=
  match call_gemini_cli chunk (oracle i) with
  | .ok translated_chunk =>
      let newCum := dictUpdate st.cumulative translated_chunk
      { cumulative := newCum,
        checkpoints :=
          if writeOk i then st.checkpoints ++ [(i, newCum)] else st.checkpoints }
  | .error _ =>
      { cumulative := dictUpdate st.cumulative chunk,
        checkpoints := st.checkpoints }

/-- The `for i, chunk in enumerate(chunks, 1)` loop of `auto_translate`:
chunks with index below `startChunk` are skipped (`continue`), the rest
are processed in ascending order. -/
def runChunks (oracle : Nat → GeminiResult) (writeOk : Nat → Bool)
    (startChunk : Nat) : Nat → List Table → RunState → RunState
  | _, [], st => st
  | i, c :: rest, st =>
      runChunks oracle writeOk startChunk (i + 1) rest
        (if i < startChunk then st else processChunk oracle writeOk i c st)

/-- Outcome of a run of `auto_translate` (lines 225-284).
`missingInput`: no `all_untranslated_*` file, `logger.error` and return.
`emptyNoOp`: `if not data_to_translate` — the loaded backlog is empty
(or failed to load), `logger.info` and return without error.
`completed`: the loop ran to the end; the final cumulative table is
saved as the translated artifact and the checkpoints listed were
written along the way. -/
inductive TranslateOutcome where
  | missingInput : TranslateOutcome
  | emptyNoOp : TranslateOutcome
  | completed : Table → List (Nat × Table) → TranslateOutcome
deriving DecidableEq

/-- The final translated table the stage persists, when it reaches the
end of the loop. -/
def TranslateOutcome.result : TranslateOutcome → Option Table
  | .completed t _ => some t
  | _ => none

/-- The checkpoints written during the run. -/
def TranslateOutcome.checkpointList : TranslateOutcome → List (Nat × Table)
  | .completed _ cps => cps
  | _ => []

/-- Whether the outcome was reported through `logger.error` (only the
missing-input case; an empty backlog and a completed run log at info
level). -/
def TranslateOutcome.reportsError : TranslateOutcome → Bool
  | .missingInput => true
  | _ => false

/-- Lines 249-259 of `auto_translate`: the initial `translated_data` and
`start_chunk` (`if resume_chunk and resume_chunk > 1`, then load
`progress_{resume_chunk - 1}.json` if it exists — `_load_json(...) or {}`
maps a load failure to the empty dict — else warn and start from 1). -/
def resumeInit (resumeChunk : Option Nat)
    (progress : Nat → Option (Option Table)) : Table × Nat :=
  match resumeChunk with
  | some r =>
      if 1 < r then
        match progress (r - 1) with
        | some (some t) => (t, r)
        | some none => ([], r)
        | none => ([], 1)
      else ([], 1)
  | none => ([], 1)

/-- `auto_translate`, lines 225-284.  Parameters abstract the
environment: `inputFound` — whether `_get_latest_file` finds an
`all_untranslated_*` artifact; `loaded` — what `_load_json` returns for
it (`none` = parse failure); `resumeChunk` — the `--resume` argument;
`progress j` — the checkpoint file `progress_<j>.json` (`none`: absent;
`some none`: present but unparseable, `_load_json(...) or {}` yields the
empty dict; `some (some t)`: loads as `t`); `oracle` and `writeOk` — the
collaborator's behaviour and checkpoint-write success per chunk index. -/
def auto_translate (chunkSize : Nat) (inputFound : Bool)
    (loaded : Option Table) (resumeChunk : Option Nat)
    (progress : Nat → Option (Option Table))
    (oracle : Nat → GeminiResult) (writeOk : Nat → Bool) : TranslateOutcome :=
  if !inputFound then .missingInput
  else
    match loaded with
    | none => .emptyNoOp
    | some [] => .emptyNoOp
    | some data =>
        let chunks := create_chunks chunkSize data
        let init := resumeInit resumeChunk progress
        let st := runChunks oracle writeOk init.2 1 chunks ⟨init.1, []⟩
        .completed st.cumulative st.checkpoints

/-- What `_save_json` (lines 100-108) reports: the write either
succeeded or its exception was caught and logged.  Both constructors are
normal returns — the function has no raising path. -/
inductive SaveResult where
  | saved : SaveResult
  | loggedError : String → SaveResult
deriving DecidableEq

/-- `_save_json`: the `try` body's outcome is caught in full; any
serialization or I/O exception becomes a logged error and a normal
return. -/
def save_json (write : Except String Unit) : SaveResult :=
  match write with
  | .ok _ => .saved
  | .error e => .loggedError e

/-- Outcome of `build_resource_pack` (lines 378-428). -/
inductive BuildOutcome where
  | missingInput : BuildOutcome
  | loadFailed : BuildOutcome
  | published : Table → BuildOutcome
deriving DecidableEq

/-- `build_resource_pack`: load the newly translated table; read the
existing pack's `ja_jp.json` as the base when present (`or {}` maps a
load failure to the empty dict); `base_translations.update(newly)`;
`final_translations = dict(sorted(base_translations.items()))`; write
`pack.mcmeta` and the lang file through `_save_json` (whose results
`w1`, `w2` never influence the outcome). -/
def build_resource_pack (inputFound : Bool) (loaded : Option Table)
    (existingLang : Option (Option Table))
    (w1 w2 : Except String Unit) : BuildOutcome :=
  if !inputFound then .missingInput
  else
    match loaded with
    | none => .loadFailed
    | some newly =>
        let base : Table :=
          match existingLang with
          | some (some t) => t
          | some none => []
          | none => []
        let final_translations :=
          dictOfPairs (List.insertionSort keyLe (dictUpdate base newly))
        let _ := save_json w1
        let _ := save_json w2
        .published final_translations

/-- The published `ja_jp.json` table, when the stage reaches the write. -/
def BuildOutcome.publishedTable : BuildOutcome → Option Table
  | .published t => some t
  | _ => none

/-! ### Dictionary lemmas -/

theorem any_key_eq (t : Table) (k : String) :
    (t.any fun p => p.1 == k) = true ↔ k ∈ tableKeys t := by
  simp [List.any_eq_true, tableKeys, List.mem_map]

theorem tableKeys_map_replace (t : Table) (k v : String) :
    tableKeys (t.map (fun p => if p.1 == k then (k, v) else p)) = tableKeys t := by
  induction t with
  | nil => rfl
  | cons p ps ih =>
    by_cases hpk : p.1 = k
    · simpa [tableKeys, hpk] using ih
    · simpa [tableKeys, hpk] using ih

theorem setKey_of_mem (t : Table) (k v : String) (h : k ∈ tableKeys t) :
    setKey t k v = t.map (fun p => if p.1 == k then (k, v) else p) := by
  simp [setKey, (any_key_eq t k).mpr h]

theorem setKey_of_not_mem (t : Table) (k v : String) (h : k ∉ tableKeys t) :
    setKey t k v = t ++ [(k, v)] := by
  have : ¬(t.any fun p => p.1 == k) = true := fun hc => h ((any_key_eq t k).mp hc)
  simp [setKey, this]

theorem tableKeys_setKey_of_mem (t : Table) (k v : String) (h : k ∈ tableKeys t) :
    tableKeys (setKey t k v) = tableKeys t := by
  rw [setKey_of_mem t k v h, tableKeys_map_replace]

theorem tableKeys_setKey_of_not_mem (t : Table) (k v : String) (h : k ∉ tableKeys t) :
    tableKeys (setKey t k v) = tableKeys t ++ [k] := by
  rw [setKey_of_not_mem t k v h]
  simp [tableKeys]

theorem mem_tableKeys_setKey (t : Table) (k v a : String) :
    a ∈ tableKeys (setKey t k v) ↔ a ∈ tableKeys t ∨ a = k := by
  by_cases h : k ∈ tableKeys t
  · rw [tableKeys_setKey_of_mem t k v h]
    constructor
    · exact Or.inl
    · rintro (ha | rfl) <;> [exact ha; exact h]
  · rw [tableKeys_setKey_of_not_mem t k v h]
    simp

theorem lookupTable_setKey_self (t : Table) (k v : String) :
    lookupTable (setKey t k v) k = some v := by
  by_cases h : k ∈ tableKeys t
  · rw [setKey_of_mem t k v h]
    induction t with
    | nil => simp [tableKeys] at h
    | cons p ps ih =>
      by_cases hpk : p.1 = k
      · simp [lookupTable, List.find?_cons, hpk]
      · have : k ∈ tableKeys ps := by
          simp only [tableKeys, List.map_cons, List.mem_cons] at h
          rcases h with h | h
          · exact absurd h.symm hpk
          · exact h
        simpa [lookupTable, List.find?_cons, hpk] using ih this
  · rw [setKey_of_not_mem t k v h]
    induction t with
    | nil => simp [lookupTable]
    | cons p ps ih =>
      have hpk : ¬p.1 = k := by
        intro hc
        exact h (by simp [tableKeys, hc])
      have hps : k ∉ tableKeys ps := by
        intro hc
        exact h (by simp [tableKeys] at hc ⊢; tauto)
      simpa [lookupTable, List.find?_cons, hpk] using ih hps

theorem lookupTable_setKey_ne (t : Table) (k v a : String) (hak : a ≠ k) :
    lookupTable (setKey t k v) a = lookupTable t a := by
  have hka : ¬(k = a) := fun hc => hak hc.symm
  by_cases h : k ∈ tableKeys t
  · rw [setKey_of_mem t k v h]
    clear h
    induction t with
    | nil => simp
    | cons p ps ih =>
      rw [List.map_cons]
      by_cases hpk : p.1 = k
      · have h1 : (if (p.1 == k) = true then (k, v) else p) = (k, v) := by simp [hpk]
        rw [h1]
        unfold lookupTable
        rw [List.find?_cons_of_neg _ (by simpa using hka),
          List.find?_cons_of_neg _ (by simpa [hpk] using hka)]
        exact ih
      · have h1 : (if (p.1 == k) = true then (k, v) else p) = p := by simp [hpk]
        rw [h1]
        by_cases hpa : p.1 = a
        · unfold lookupTable
          rw [List.find?_cons_of_pos _ (by simpa using hpa),
            List.find?_cons_of_pos _ (by simpa using hpa)]
        · unfold lookupTable
          rw [List.find?_cons_of_neg _ (by simpa using hpa),
            List.find?_cons_of_neg _ (by simpa using hpa)]
          exact ih
  · rw [setKey_of_not_mem t k v h]
    clear h
    induction t with
    | nil =>
      unfold lookupTable
      rw [List.nil_append, List.find?_cons_of_neg _ (by simpa using hka)]
    | cons p ps ih =>
      rw [List.cons_append]
      by_cases hpa : p.1 = a
      · unfold lookupTable
        rw [List.find?_cons_of_pos _ (by simpa using hpa),
          List.find?_cons_of_pos _ (by simpa using hpa)]
      · unfold lookupTable
        rw [List.find?_cons_of_neg _ (by simpa using hpa),
          List.find?_cons_of_neg _ (by simpa using hpa)]
        exact ih

theorem dictUpdate_cons (b : Table) (p : String × String) (ps : Table) :
    dictUpdate b (p :: ps) = dictUpdate (setKey b p.1 p.2) ps := rfl

theorem mem_tableKeys_dictUpdate (b o : Table) (a : String) :
    a ∈ tableKeys (dictUpdate b o) ↔ a ∈ tableKeys b ∨ a ∈ tableKeys o := by
  induction o generalizing b with
  | nil => simp [dictUpdate, tableKeys]
  | cons p ps ih =>
    rw [dictUpdate_cons, ih, mem_tableKeys_setKey]
    simp [tableKeys, or_assoc, eq_comm]

theorem lookupTable_dictUpdate_not_mem (b o : Table) (a : String)
    (ha : a ∉ tableKeys o) :
    lookupTable (dictUpdate b o) a = lookupTable b a := by
  induction o generalizing b with
  | nil => rfl
  | cons p ps ih =>
    simp only [tableKeys, List.map_cons, List.mem_cons, not_or] at ha
    rw [dictUpdate_cons, ih _ (by simpa [tableKeys] using ha.2),
      lookupTable_setKey_ne _ _ _ _ ha.1]

theorem lookupTable_dictUpdate_mem (b o : Table) (a : String)
    (hnd : (tableKeys o).Nodup) (ha : a ∈ tableKeys o) :
    lookupTable (dictUpdate b o) a = lookupTable o a := by
  induction o generalizing b with
  | nil => simp [tableKeys] at ha
  | cons p ps ih =>
    simp only [tableKeys, List.map_cons, List.nodup_cons] at hnd
    rw [dictUpdate_cons]
    by_cases hmem : a ∈ tableKeys ps
    · have hne : a ≠ p.1 := fun h => hnd.1 (h ▸ hmem)
      rw [ih _ hnd.2 hmem]
      unfold lookupTable
      rw [List.find?_cons_of_neg _ (by simpa using fun h => hne h.symm)]
    · have hap : a = p.1 := by
        simp only [tableKeys, List.map_cons, List.mem_cons] at ha
        tauto
      subst hap
      rw [lookupTable_dictUpdate_not_mem _ _ _ hmem, lookupTable_setKey_self]
      unfold lookupTable
      rw [List.find?_cons_of_pos _ (by simp)]
      simp

theorem lookupTable_eq_none (t : Table) (k : String) :
    lookupTable t k = none ↔ k ∉ tableKeys t := by
  induction t with
  | nil => simp [lookupTable, tableKeys]
  | cons p ps ih =>
    by_cases hpk : p.1 = k
    · unfold lookupTable
      rw [List.find?_cons_of_pos _ (by simpa using hpk)]
      simp [tableKeys, hpk]
    · unfold lookupTable
      rw [List.find?_cons_of_neg _ (by simpa using hpk)]
      unfold lookupTable at ih
      rw [ih]
      simp only [tableKeys, List.map_cons, List.mem_cons, not_or]
      exact (and_iff_right (fun h => hpk h.symm)).symm

theorem lookupTable_eq_some_iff (t : Table) (k v : String)
    (hnd : (tableKeys t).Nodup) :
    lookupTable t k = some v ↔ (k, v) ∈ t := by
  induction t with
  | nil => simp [lookupTable]
  | cons p ps ih =>
    simp only [tableKeys, List.map_cons, List.nodup_cons] at hnd
    by_cases hpk : p.1 = k
    · unfold lookupTable
      rw [List.find?_cons_of_pos _ (by simpa using hpk)]
      simp only [Option.map_some', Option.some.injEq, List.mem_cons]
      constructor
      · rintro rfl
        exact Or.inl (Prod.ext hpk.symm rfl)
      · rintro (h | h)
        · rw [← h]
        · exact absurd (hpk ▸ List.mem_map_of_mem Prod.fst h)
            (by simpa [tableKeys] using hnd.1)
    · unfold lookupTable
      rw [List.find?_cons_of_neg _ (by simpa using hpk)]
      unfold lookupTable at ih
      rw [ih hnd.2]
      simp only [List.mem_cons]
      exact (or_iff_right (fun h => hpk (by rw [← h]))).symm

theorem tableKeys_dictUpdate_nodup (b o : Table) (hb : (tableKeys b).Nodup) :
    (tableKeys (dictUpdate b o)).Nodup := by
  induction o generalizing b with
  | nil => exact hb
  | cons p ps ih =>
    rw [dictUpdate_cons]
    refine ih _ ?_
    by_cases h : p.1 ∈ tableKeys b
    · rw [tableKeys_setKey_of_mem _ _ _ h]; exact hb
    · rw [tableKeys_setKey_of_not_mem _ _ _ h]
      simpa [List.nodup_append] using ⟨hb, h⟩

theorem dictUpdate_eq_append (l : Table) (hnd : (tableKeys l).Nodup) :
    ∀ acc : Table, (∀ k ∈ tableKeys l, k ∉ tableKeys acc) →
      dictUpdate acc l = acc ++ l := by
  induction l with
  | nil => intro acc _; simp [dictUpdate]
  | cons p ps ih =>
    intro acc hdisj
    simp only [tableKeys, List.map_cons, List.nodup_cons] at hnd
    rw [dictUpdate_cons,
      setKey_of_not_mem _ _ _ (hdisj p.1 (by simp [tableKeys])),
      ih hnd.2 (acc ++ [(p.1, p.2)]) ?_]
    · simp
    · intro k hk
      simp only [tableKeys, List.map_append, List.mem_append, List.map_cons,
        List.map_nil, List.mem_singleton, not_or]
      refine ⟨fun hka => hdisj k (by
        simp only [tableKeys, List.map_cons, List.mem_cons]
        exact Or.inr hk) hka, fun hkp => ?_⟩
      exact hnd.1 (hkp ▸ hk)

theorem dictOfPairs_eq_self (l : Table) (hnd : (tableKeys l).Nodup) :
    dictOfPairs l = l := by
  simpa [dictOfPairs] using dictUpdate_eq_append l hnd [] (by simp [tableKeys])

theorem lookupTable_perm (l l2 : Table) (hp : l.Perm l2)
    (hnd : (tableKeys l).Nodup) (k : String) :
    lookupTable l k = lookupTable l2 k := by
  have hnd2 : (tableKeys l2).Nodup := by
    unfold tableKeys at hnd ⊢
    exact (hp.map Prod.fst).nodup_iff.mp hnd
  cases h : lookupTable l2 k with
  | none =>
    rw [lookupTable_eq_none] at h ⊢
    exact fun hc => h (((hp.map Prod.fst).mem_iff).mp hc)
  | some v =>
    rw [lookupTable_eq_some_iff _ _ _ hnd2] at h
    rw [lookupTable_eq_some_iff _ _ _ hnd]
    exact hp.mem_iff.mpr h

/-! ### Diff-stage lemmas -/

theorem contains_iff_mem (l : List String) (a : String) :
    l.contains a = true ↔ a ∈ l := by
  show l.elem a = true ↔ a ∈ l
  exact List.elem_iff

theorem not_contains_iff (l : List String) (a : String) :
    (!l.contains a) = true ↔ a ∉ l := by
  rw [Bool.not_eq_true', Bool.eq_false_iff]
  exact not_congr (contains_iff_mem l a)

theorem mem_sortStrings (ks : List String) (k : String) :
    k ∈ sortStrings ks ↔ k ∈ ks := by
  unfold sortStrings
  exact List.mem_insertionSort strLe

theorem mem_extract_lang_diff (en ja : Table) (k v : String) :
    (k, v) ∈ extract_lang_diff en ja ↔
      lookupTable en k = some v ∧ k ∉ tableKeys ja := by
  unfold extract_lang_diff
  rw [List.mem_filterMap]
  constructor
  · rintro ⟨a, ha, hfa⟩
    rw [Option.map_eq_some'] at hfa
    obtain ⟨w, hw, heq⟩ := hfa
    cases heq
    rw [mem_sortStrings, List.mem_dedup, List.mem_filter] at ha
    exact ⟨hw, (not_contains_iff _ _).mp ha.2⟩
  · rintro ⟨hv, hja⟩
    refine ⟨k, ?_, by simp [hv]⟩
    rw [mem_sortStrings, List.mem_dedup, List.mem_filter]
    refine ⟨?_, (not_contains_iff _ _).mpr hja⟩
    have : lookupTable en k ≠ none := by simp [hv]
    by_contra hc
    exact this ((lookupTable_eq_none en k).mpr hc)

theorem mem_find_untranslated (a t : Table) (k v : String) :
    (k, v) ∈ find_untranslated a t ↔
      lookupTable a k = some v ∧
        ∀ p ∈ t, p.1 = k → p.2 = "" := by
  unfold find_untranslated
  rw [List.mem_filterMap]
  constructor
  · rintro ⟨x, hx, hfx⟩
    rw [Option.map_eq_some'] at hfx
    obtain ⟨w, hw, heq⟩ := hfx
    cases heq
    rw [mem_sortStrings, List.mem_dedup, List.mem_filter] at hx
    refine ⟨hw, fun p hp hpk => ?_⟩
    by_contra hne
    have hmem : k ∈ (t.filter (fun p => p.2 != "")).map Prod.fst :=
      hpk ▸ List.mem_map_of_mem Prod.fst
        (List.mem_filter.mpr ⟨hp, by simpa using hne⟩)
    exact (not_contains_iff _ _).mp hx.2 hmem
  · rintro ⟨hv, hall⟩
    refine ⟨k, ?_, by simp [hv]⟩
    rw [mem_sortStrings, List.mem_dedup, List.mem_filter]
    constructor
    · have : lookupTable a k ≠ none := by simp [hv]
      by_contra hc
      exact this ((lookupTable_eq_none a k).mpr hc)
    · refine (not_contains_iff _ _).mpr ?_
      intro hc
      simp only [List.mem_map] at hc
      obtain ⟨p, hp, hpk⟩ := hc
      have h1 := hall p (List.mem_filter.mp hp).1 hpk
      have h2 := (List.mem_filter.mp hp).2
      simp [h1] at h2

/-! ### Chunk-partition lemmas -/

theorem chunksGo_flatten (n : Nat) :
    ∀ (fuel : Nat) (l : List (String × String)), l.length ≤ fuel →
      (chunksGo n fuel l).flatten = l := by
  intro fuel
  induction fuel with
  | zero =>
    intro l hl
    have h0 : l = [] := List.eq_nil_of_length_eq_zero (Nat.le_zero.mp hl)
    subst h0
    rfl
  | succ f ih =>
    intro l hl
    match l with
    | [] => rfl
    | x :: xs =>
      have hxs : (xs.drop (n - 1)).length ≤ f := by
        simp only [List.length_cons] at hl
        simp only [List.length_drop]
        omega
      show ((x :: xs.take (n - 1)) :: chunksGo n f (xs.drop (n - 1))).flatten = x :: xs
      rw [List.flatten_cons, ih (xs.drop (n - 1)) hxs]
      simp [List.take_append_drop]

theorem chunksGo_length (n : Nat) (hn : 0 < n) :
    ∀ (fuel : Nat) (l : List (String × String)), l.length ≤ fuel →
      (chunksGo n fuel l).length = (l.length + n - 1) / n := by
  intro fuel
  induction fuel with
  | zero =>
    intro l hl
    have h0 : l = [] := List.eq_nil_of_length_eq_zero (Nat.le_zero.mp hl)
    subst h0
    show (0 : Nat) = ([].length + n - 1) / n
    rw [List.length_nil]
    exact (Nat.div_eq_of_lt (by omega)).symm
  | succ f ih =>
    intro l hl
    match l with
    | [] =>
      show (0 : Nat) = ([].length + n - 1) / n
      rw [List.length_nil]
      exact (Nat.div_eq_of_lt (by omega)).symm
    | x :: xs =>
      have hxs : (xs.drop (n - 1)).length ≤ f := by
        simp only [List.length_cons] at hl
        simp only [List.length_drop]
        omega
      show (chunksGo n f (xs.drop (n - 1))).length + 1 = ((x :: xs).length + n - 1) / n
      rw [ih (xs.drop (n - 1)) hxs, List.length_drop, List.length_cons]
      rcases Nat.lt_or_ge xs.length (n - 1) with hlt | hge
      · have h1 : xs.length - (n - 1) + n - 1 = n - 1 := by omega
        have h2 : xs.length + 1 + n - 1 = xs.length + n := by omega
        have h3 : (xs.length + n) / n = 1 :=
          Nat.div_eq_of_lt_le (by omega) (by omega)
        rw [h1, h2, Nat.div_eq_of_lt (by omega), h3]
      · have h1 : xs.length - (n - 1) + n - 1 = xs.length := by omega
        have h2 : xs.length + 1 + n - 1 = xs.length + n := by omega
        rw [h1, h2, Nat.add_div_right xs.length hn]

theorem create_chunks_flatten (n : Nat) (data : Table) :
    (create_chunks n data).flatten = data :=
  chunksGo_flatten n data.length data (Nat.le_refl _)

theorem create_chunks_length (n : Nat) (hn : 0 < n) (data : Table) :
    (create_chunks n data).length = (data.length + n - 1) / n :=
  chunksGo_length n hn data.length data (Nat.le_refl _)

/-! ### Translation-driver lemmas -/

/-- The table actually merged into the cumulative result for a chunk:
the collaborator's parsed table on success, and the chunk's own original
entries on either failure mode (`return input_data` in
`_call_gemini_cli`, or `translated_data.update(chunk)` in the `except`
branch of `auto_translate`). -/
def effectiveTable (chunk : Table) : GeminiResult → Table
  | .success t => t
  | .parseFail => chunk
  | .procFail => chunk

/-- The per-chunk effective tables for a chunk list starting at index `i`. -/
def effList (oracle : Nat → GeminiResult) : Nat → List Table → List Table
  | _, [] => []
  | i, c :: rest => effectiveTable c (oracle i) :: effList oracle (i + 1) rest

theorem processChunk_cumulative (oracle : Nat → GeminiResult)
    (writeOk : Nat → Bool) (i : Nat) (chunk : Table) (st : RunState) :
    (processChunk oracle writeOk i chunk st).cumulative =
      dictUpdate st.cumulative (effectiveTable chunk (oracle i)) := by
  unfold processChunk effectiveTable call_gemini_cli
  cases oracle i <;> rfl

theorem processChunk_checkpoints_ok (oracle : Nat → GeminiResult)
    (writeOk : Nat → Bool) (i : Nat) (chunk : Table) (st : RunState)
    (hok : oracle i ≠ .procFail) (hw : writeOk i = true) :
    (processChunk oracle writeOk i chunk st).checkpoints =
      st.checkpoints ++ [(i, (processChunk oracle writeOk i chunk st).cumulative)] := by
  unfold processChunk call_gemini_cli
  cases h : oracle i with
  | success t => simp [hw]
  | parseFail => simp [hw]
  | procFail => exact absurd h hok

theorem processChunk_checkpoints_procFail (oracle : Nat → GeminiResult)
    (writeOk : Nat → Bool) (i : Nat) (chunk : Table) (st : RunState)
    (hfail : oracle i = .procFail) :
    (processChunk oracle writeOk i chunk st).checkpoints = st.checkpoints := by
  unfold processChunk call_gemini_cli
  rw [hfail]

theorem runChunks_cumulative (oracle : Nat → GeminiResult)
    (writeOk : Nat → Bool) (start : Nat) :
    ∀ (cs : List Table) (i : Nat) (st : RunState), start ≤ i →
      (runChunks oracle writeOk start i cs st).cumulative =
        (effList oracle i cs).foldl dictUpdate st.cumulative := by
  intro cs
  induction cs with
  | nil => intro i st _; rfl
  | cons c rest ih =>
    intro i st hsi
    show (runChunks oracle writeOk start (i + 1) rest
      (if i < start then st else processChunk oracle writeOk i c st)).cumulative = _
    rw [if_neg (Nat.not_lt.mpr hsi)]
    rw [ih (i + 1) _ (Nat.le_succ_of_le hsi)]
    rw [processChunk_cumulative]
    rfl

theorem runChunks_skipped (oracle : Nat → GeminiResult)
    (writeOk : Nat → Bool) (start : Nat) :
    ∀ (cs : List Table) (i : Nat) (st : RunState), i + cs.length ≤ start →
      runChunks oracle writeOk start i cs st = st := by
  intro cs
  induction cs with
  | nil => intro i st _; rfl
  | cons c rest ih =>
    intro i st hle
    simp only [List.length_cons] at hle
    show runChunks oracle writeOk start (i + 1) rest
      (if i < start then st else processChunk oracle writeOk i c st) = st
    rw [if_pos (by omega)]
    exact ih (i + 1) st (by omega)

theorem runChunks_append (oracle : Nat → GeminiResult)
    (writeOk : Nat → Bool) (start : Nat) :
    ∀ (cs1 cs2 : List Table) (i : Nat) (st : RunState),
      runChunks oracle writeOk start i (cs1 ++ cs2) st =
        runChunks oracle writeOk start (i + cs1.length) cs2
          (runChunks oracle writeOk start i cs1 st) := by
  intro cs1
  induction cs1 with
  | nil => intro cs2 i st; rfl
  | cons c rest ih =>
    intro cs2 i st
    show runChunks oracle writeOk start (i + 1) (rest ++ cs2) _ = _
    rw [ih cs2 (i + 1)]
    simp only [List.length_cons]
    congr 1
    omega

theorem effList_append (oracle : Nat → GeminiResult) :
    ∀ (cs1 cs2 : List Table) (i : Nat),
      effList oracle i (cs1 ++ cs2) =
        effList oracle i cs1 ++ effList oracle (i + cs1.length) cs2 := by
  intro cs1
  induction cs1 with
  | nil => intro cs2 i; simp [effList]
  | cons c rest ih =>
    intro cs2 i
    show effectiveTable c (oracle i) :: effList oracle (i + 1) (rest ++ cs2) = _
    rw [ih cs2 (i + 1)]
    simp only [List.length_cons, List.cons_append, effList]
    congr 3
    omega

theorem runChunks_checkpoints_mem (oracle : Nat → GeminiResult)
    (writeOk : Nat → Bool) (start : Nat) :
    ∀ (cs : List Table) (i : Nat) (st : RunState) (j : Nat) (c : Table),
      start ≤ i →
      (j, c) ∈ (runChunks oracle writeOk start i cs st).checkpoints →
      (j, c) ∈ st.checkpoints ∨
        (i ≤ j ∧ j < i + cs.length ∧
          c = (effList oracle i (cs.take (j + 1 - i))).foldl dictUpdate st.cumulative) := by
  intro cs
  induction cs with
  | nil => intro i st j c _ hmem; exact Or.inl hmem
  | cons ch rest ih =>
    intro i st j c hsi hmem
    rw [show runChunks oracle writeOk start i (ch :: rest) st =
      runChunks oracle writeOk start (i + 1) rest
        (if i < start then st else processChunk oracle writeOk i ch st) from rfl,
      if_neg (Nat.not_lt.mpr hsi)] at hmem
    rcases ih (i + 1) _ j c (Nat.le_succ_of_le hsi) hmem with hin | ⟨hj1, hj2, hc⟩
    · -- the checkpoint was present right after processing chunk i
      unfold processChunk at hin
      rcases hcall : call_gemini_cli ch (oracle i) with he | ht
      · rw [hcall] at hin
        exact Or.inl hin
      · rw [hcall] at hin
        simp only at hin
        by_cases hw : writeOk i = true
        · rw [if_pos hw] at hin
          rcases List.mem_append.mp hin with hin2 | hin2
          · exact Or.inl hin2
          · simp only [List.mem_singleton, Prod.mk.injEq] at hin2
            obtain ⟨hji, hcval⟩ := hin2
            refine Or.inr ⟨by omega, by simp only [List.length_cons]; omega, ?_⟩
            have heff : effectiveTable ch (oracle i) = ht := by
              cases h2 : oracle i with
              | success t =>
                rw [h2] at hcall
                simp only [call_gemini_cli, Except.ok.injEq] at hcall
                simp [effectiveTable, hcall]
              | parseFail =>
                rw [h2] at hcall
                simp only [call_gemini_cli, Except.ok.injEq] at hcall
                simp [effectiveTable, hcall]
              | procFail =>
                rw [h2] at hcall
                simp [call_gemini_cli] at hcall
            have htk : (ch :: rest).take (j + 1 - i) = [ch] := by
              have h3 : j + 1 - i = 1 := by omega
              rw [h3]
              rfl
            rw [htk, hcval]
            show dictUpdate st.cumulative ht =
              (effList oracle i [ch]).foldl dictUpdate st.cumulative
            simp [effList, heff]
        · rw [if_neg hw] at hin
          exact Or.inl hin
    · -- the checkpoint came from a later chunk
      refine Or.inr ⟨Nat.le_of_succ_le hj1, by
        simp only [List.length_cons]; omega, ?_⟩
      rw [hc, processChunk_cumulative]
      have htk : (ch :: rest).take (j + 1 - i) = ch :: rest.take (j + 1 - (i + 1)) := by
        have : j + 1 - i = (j + 1 - (i + 1)) + 1 := by omega
        rw [this, List.take_succ_cons]
      rw [htk]
      show _ = (effList oracle i (ch :: rest.take (j + 1 - (i + 1)))).foldl
        dictUpdate st.cumulative
      rfl

theorem runChunks_cons (oracle : Nat → GeminiResult) (writeOk : Nat → Bool)
    (start i : Nat) (c : Table) (rest : List Table) (st : RunState) :
    runChunks oracle writeOk start i (c :: rest) st =
      runChunks oracle writeOk start (i + 1) rest
        (if i < start then st else processChunk oracle writeOk i c st) := rfl

theorem runChunks_checkpoint_indices (oracle : Nat → GeminiResult)
    (writeOk : Nat → Bool) (start : Nat)
    (hok : ∀ j, oracle j ≠ .procFail) (hw : ∀ j, writeOk j = true) :
    ∀ (cs : List Table) (i : Nat) (st : RunState), start ≤ i →
      (runChunks oracle writeOk start i cs st).checkpoints.map Prod.fst =
        st.checkpoints.map Prod.fst ++ List.range' i cs.length := by
  intro cs
  induction cs with
  | nil =>
    intro i st _
    show st.checkpoints.map Prod.fst = _
    simp
  | cons c rest ih =>
    intro i st hsi
    rw [runChunks_cons, if_neg (Nat.not_lt.mpr hsi),
      ih (i + 1) _ (Nat.le_succ_of_le hsi),
      processChunk_checkpoints_ok oracle writeOk i c st (hok i) (hw i)]
    rw [List.length_cons, List.range'_succ]
    simp

theorem runChunks_cumulative_indep (oracle : Nat → GeminiResult)
    (w w2 : Nat → Bool) (start : Nat) :
    ∀ (cs : List Table) (i : Nat) (st st2 : RunState),
      st.cumulative = st2.cumulative →
      (runChunks oracle w start i cs st).cumulative =
        (runChunks oracle w2 start i cs st2).cumulative := by
  intro cs
  induction cs with
  | nil => intro i st st2 h; exact h
  | cons c rest ih =>
    intro i st st2 h
    rw [runChunks_cons, runChunks_cons]
    by_cases hlt : i < start
    · rw [if_pos hlt, if_pos hlt]
      exact ih (i + 1) st st2 h
    · rw [if_neg hlt, if_neg hlt]
      refine ih (i + 1) _ _ ?_
      rw [processChunk_cumulative, processChunk_cumulative, h]

theorem auto_translate_eq_run (chunkSize : Nat) (x : String × String)
    (xs : List (String × String)) (resumeChunk : Option Nat)
    (progress : Nat → Option (Option Table)) (oracle : Nat → GeminiResult)
    (writeOk : Nat → Bool) :
    auto_translate chunkSize true (some (x :: xs)) resumeChunk progress oracle writeOk =
      .completed
        (runChunks oracle writeOk (resumeInit resumeChunk progress).2 1
          (create_chunks chunkSize (x :: xs))
          ⟨(resumeInit resumeChunk progress).1, []⟩).cumulative
        (runChunks oracle writeOk (resumeInit resumeChunk progress).2 1
          (create_chunks chunkSize (x :: xs))
          ⟨(resumeInit resumeChunk progress).1, []⟩).checkpoints := rfl

theorem resumeInit_none (progress : Nat → Option (Option Table)) :
    resumeInit none progress = ([], 1) := rfl

theorem resumeInit_loaded (k : Nat) (c : Table)
    (progress : Nat → Option (Option Table)) (hk : 1 < k)
    (hp : progress (k - 1) = some (some c)) :
    resumeInit (some k) progress = (c, k) := by
  show (if 1 < k then
      match progress (k - 1) with
      | some (some t) => (t, k)
      | some none => ([], k)
      | none => ([], 1)
    else ([], 1)) = (c, k)
  rw [if_pos hk, hp]

/-! ### Claim theorems -/

/-- Claim C6: chunk partitioning is a deterministic function of the
backlog's entry order and the chunk size `N > 0` (it is a pure function,
so two partitionings of the same backlog with the same `N` coincide): it
produces exactly `ceil(|backlog| / N)` chunks, which are ordered
contiguous slices of the backlog (their in-order concatenation is the
backlog itself), and a 3-entry backlog with chunk size 2 yields the two
chunks from the spec's example. -/
theorem chunk_partition_deterministic (N : Nat) (backlog : Table) (hN : 0 < N) :
    (create_chunks N backlog).length = (backlog.length + N - 1) / N ∧
    (create_chunks N backlog).flatten = backlog ∧
    create_chunks 2 [("k1", "v1"), ("k2", "v2"), ("k3", "v3")] =
      [[("k1", "v1"), ("k2", "v2")], [("k3", "v3")]] :=
  ⟨create_chunks_length N hN backlog, create_chunks_flatten N backlog, by decide⟩

/-- Witness for C6 at `N = 2` and the spec's 3-entry backlog. -/
theorem chunk_partition_deterministic_witness :
    (create_chunks 2 [("k1", "v1"), ("k2", "v2"), ("k3", "v3")]).length =
        (([("k1", "v1"), ("k2", "v2"), ("k3", "v3")] : Table).length + 2 - 1) / 2 ∧
    (create_chunks 2 [("k1", "v1"), ("k2", "v2"), ("k3", "v3")]).flatten =
        [("k1", "v1"), ("k2", "v2"), ("k3", "v3")] ∧
    create_chunks 2 [("k1", "v1"), ("k2", "v2"), ("k3", "v3")] =
      [[("k1", "v1"), ("k2", "v2")], [("k3", "v3")]] :=
  chunk_partition_deterministic 2 [("k1", "v1"), ("k2", "v2"), ("k3", "v3")]
    (by decide)

/-- Claim C7: merge (`dict.update`) yields a table containing every key
of both operands, and it is right-biased: for a key of the overlay, the
merged table's value is the overlay's value. -/
theorem merge_right_biased (a b : Table) (k : String) :
    (k ∈ tableKeys a → k ∈ tableKeys (dictUpdate a b)) ∧
    (k ∈ tableKeys b → k ∈ tableKeys (dictUpdate a b)) ∧
    ((tableKeys b).Nodup → k ∈ tableKeys b →
      lookupTable (dictUpdate a b) k = lookupTable b k) :=
  ⟨fun h => (mem_tableKeys_dictUpdate a b k).mpr (Or.inl h),
   fun h => (mem_tableKeys_dictUpdate a b k).mpr (Or.inr h),
   fun hnd h => lookupTable_dictUpdate_mem a b k hnd h⟩

/-- Witness for C7 on the colliding key "x". -/
theorem merge_right_biased_witness :
    lookupTable (dictUpdate [("x", "1")] [("x", "2")]) "x" =
      lookupTable [("x", "2")] "x" :=
  (merge_right_biased [("x", "1")] [("x", "2")] "x").2.2 (by decide) (by decide)

/-- Claim C8: for all tables `a` and `b`, diff(a, merge(a, b)) is the
empty table, where diff is the first-stage diff of `extract_lang_diff`
and merge is `dict.update` as used by the pipeline. -/
theorem diff_after_merge_empty (a b : Table) :
    extract_lang_diff a (dictUpdate a b) = [] := by
  unfold extract_lang_diff
  have hfilter : (tableKeys a).filter
      (fun k => !(tableKeys (dictUpdate a b)).contains k) = [] := by
    rw [List.filter_eq_nil_iff]
    intro k hk
    intro hcontra
    exact (not_contains_iff _ _).mp hcontra
      ((mem_tableKeys_dictUpdate a b k).mpr (Or.inl hk))
  rw [hfilter]
  rfl

/-- Claim C9: when the backlog artifact is found and loads as a table
with zero entries, `auto_translate` ends immediately as a successful
no-op (the `if not data_to_translate` early return), for every resume
argument, checkpoint state, collaborator behaviour and write behaviour;
no error is reported. -/
theorem empty_backlog_noop (N : Nat) (res : Option Nat)
    (prog : Nat → Option (Option Table)) (oracle : Nat → GeminiResult)
    (w : Nat → Bool) :
    auto_translate N true (some []) res prog oracle w = .emptyNoOp ∧
    (auto_translate N true (some []) res prog oracle w).reportsError = false :=
  ⟨rfl, rfl⟩

/-- Claim C1: when the collaborator fails on a chunk — by raising
(non-zero process exit) or by returning no parseable payload — the
chunk's original untranslated entries are merged into the cumulative
result instead of being dropped; the run continues over every remaining
chunk and ends in the `completed` outcome (the final artifact is saved
and no error outcome exists for per-chunk failures); in particular, with
2 chunks where the collaborator succeeds on chunk 1 and fails on chunk
2, the final artifact holds chunk 1's translated values and chunk 2's
original values. -/
theorem chunk_failure_fallback :
    (∀ (oracle : Nat → GeminiResult) (writeOk : Nat → Bool) (i : Nat)
        (chunk : Table) (st : RunState),
        oracle i = .procFail ∨ oracle i = .parseFail →
        (processChunk oracle writeOk i chunk st).cumulative =
          dictUpdate st.cumulative chunk) ∧
    (∀ (N : Nat) (x : String × String) (xs : List (String × String))
        (res : Option Nat) (prog : Nat → Option (Option Table))
        (oracle : Nat → GeminiResult) (w : Nat → Bool),
        ∃ fin cps,
          auto_translate N true (some (x :: xs)) res prog oracle w =
            .completed fin cps ∧
          (TranslateOutcome.completed fin cps).reportsError = false) ∧
    auto_translate 1 true (some [("k1", "v1"), ("k2", "v2")]) none
        (fun _ => none)
        (fun i => if i = 1 then .success [("k1", "T1")] else .procFail)
        (fun _ => true) =
      .completed [("k1", "T1"), ("k2", "v2")] [(1, [("k1", "T1")])] := by
  refine ⟨?_, ?_, by decide⟩
  · intro oracle writeOk i chunk st h
    rw [processChunk_cumulative]
    rcases h with h | h <;> rw [h] <;> rfl
  · intro N x xs res prog oracle w
    exact ⟨_, _, auto_translate_eq_run N x xs res prog oracle w, rfl⟩

/-- Witness for C1: a raising failure on chunk 1 merges the chunk's own
entries into the (empty) cumulative table. -/
theorem chunk_failure_fallback_witness :
    (processChunk (fun _ => .procFail) (fun _ => true) 1 [("a", "b")]
        ⟨[], []⟩).cumulative = dictUpdate [] [("a", "b")] :=
  chunk_failure_fallback.1 (fun _ => .procFail) (fun _ => true) 1
    [("a", "b")] ⟨[], []⟩ (Or.inl rfl)

/-- Claim C10: every pipeline table write goes through `_save_json`,
which catches any serialization or I/O failure, logs it, and returns
normally; consequently a failed write never raises, and neither the
translation stage's reported outcome and final table nor the publish
stage's outcome depend on whether any write succeeded. -/
theorem save_failure_isolated :
    (∀ r : Except String Unit,
        save_json r = .saved ∨ ∃ e, save_json r = .loggedError e) ∧
    (∀ (N : Nat) (found : Bool) (loaded : Option Table) (res : Option Nat)
        (prog : Nat → Option (Option Table)) (oracle : Nat → GeminiResult)
        (w w2 : Nat → Bool),
        (auto_translate N found loaded res prog oracle w).result =
          (auto_translate N found loaded res prog oracle w2).result ∧
        (auto_translate N found loaded res prog oracle w).reportsError =
          (auto_translate N found loaded res prog oracle w2).reportsError) ∧
    (∀ (found : Bool) (loaded : Option Table) (ex : Option (Option Table))
        (w1 w2 w1b w2b : Except String Unit),
        build_resource_pack found loaded ex w1 w2 =
          build_resource_pack found loaded ex w1b w2b) := by
  refine ⟨?_, ?_, ?_⟩
  · intro r
    cases r with
    | ok u => exact Or.inl rfl
    | error e => exact Or.inr ⟨e, rfl⟩
  · intro N found loaded res prog oracle w w2
    cases found with
    | false => exact ⟨rfl, rfl⟩
    | true =>
      match loaded with
      | none => exact ⟨rfl, rfl⟩
      | some [] => exact ⟨rfl, rfl⟩
      | some (x :: xs) =>
        rw [auto_translate_eq_run, auto_translate_eq_run]
        refine ⟨?_, rfl⟩
        show some _ = some _
        rw [runChunks_cumulative_indep oracle w w2 (resumeInit res prog).2
          (create_chunks N (x :: xs)) 1 ⟨(resumeInit res prog).1, []⟩
          ⟨(resumeInit res prog).1, []⟩ rfl]
  · intro found loaded ex w1 w2 w1b w2b
    rfl

/-- Claim C2 counterexample: two chunks, with a raising collaborator
failure (non-zero exit) on chunk 1 and success on chunk 2, and every
write succeeding.  Chunk 1 is processed and its fallback data is merged,
but the `except` branch skips the checkpoint write, so only checkpoint 2
is written: a processed chunk has no checkpoint and the written indices
are not contiguous from 1. -/
theorem checkpoint_gap_cex :
    (auto_translate 1 true (some [("k1", "v1"), ("k2", "v2")]) none
        (fun _ => none)
        (fun i => if i = 1 then .procFail else .success [("k2", "T2")])
        (fun _ => true)).checkpointList =
      [(2, [("k1", "v1"), ("k2", "T2")])] ∧
    1 ∉ ((auto_translate 1 true (some [("k1", "v1"), ("k2", "v2")]) none
        (fun _ => none)
        (fun i => if i = 1 then .procFail else .success [("k2", "T2")])
        (fun _ => true)).checkpointList.map Prod.fst) := by
  refine ⟨by decide, by decide⟩

/-- Claim C2 (amended): checkpoint `i` holding the cumulative result is
persisted right after chunk `i` whenever the collaborator call returns
normally — success, or the in-call fallback for a response with no
parseable payload — and the write itself succeeds; when the call raises
(non-zero process exit), the fallback merge still happens but no
checkpoint `i` is written.  Consequently the written checkpoint indices
are the contiguous range `1 .. numChunks` exactly in runs where no chunk
raises (and writes succeed); a raising chunk leaves a gap. -/
theorem checkpoint_per_returning_chunk :
    (∀ (oracle : Nat → GeminiResult) (writeOk : Nat → Bool) (i : Nat)
        (chunk : Table) (st : RunState),
        oracle i ≠ .procFail → writeOk i = true →
        (processChunk oracle writeOk i chunk st).checkpoints =
          st.checkpoints ++
            [(i, (processChunk oracle writeOk i chunk st).cumulative)]) ∧
    (∀ (oracle : Nat → GeminiResult) (writeOk : Nat → Bool) (i : Nat)
        (chunk : Table) (st : RunState),
        oracle i = .procFail →
        (processChunk oracle writeOk i chunk st).checkpoints =
            st.checkpoints ∧
        (processChunk oracle writeOk i chunk st).cumulative =
            dictUpdate st.cumulative chunk) ∧
    (∀ (N : Nat) (x : String × String) (xs : List (String × String))
        (prog : Nat → Option (Option Table)) (oracle : Nat → GeminiResult)
        (w : Nat → Bool),
        (∀ j, oracle j ≠ .procFail) → (∀ j, w j = true) →
        (auto_translate N true (some (x :: xs)) none prog oracle
            w).checkpointList.map Prod.fst =
          List.range' 1 (create_chunks N (x :: xs)).length) := by
  refine ⟨processChunk_checkpoints_ok, ?_, ?_⟩
  · intro oracle writeOk i chunk st h
    refine ⟨processChunk_checkpoints_procFail oracle writeOk i chunk st h, ?_⟩
    rw [processChunk_cumulative, h]
    rfl
  · intro N x xs prog oracle w hok hw
    rw [auto_translate_eq_run]
    show (runChunks oracle w (resumeInit none prog).2 1
      (create_chunks N (x :: xs)) ⟨(resumeInit none prog).1, []⟩).checkpoints.map
        Prod.fst = _
    rw [runChunks_checkpoint_indices oracle w (resumeInit none prog).2 hok hw
      (create_chunks N (x :: xs)) 1 ⟨(resumeInit none prog).1, []⟩
      (Nat.le_refl 1)]
    simp

/-- Witness for C2 (amended): a successful chunk 1 appends
checkpoint 1. -/
theorem checkpoint_per_returning_chunk_witness :
    (processChunk (fun _ => .success [("a", "A")]) (fun _ => true) 1
        [("a", "b")] ⟨[], []⟩).checkpoints =
      [] ++ [(1, (processChunk (fun _ => .success [("a", "A")])
        (fun _ => true) 1 [("a", "b")] ⟨[], []⟩).cumulative)] :=
  checkpoint_per_returning_chunk.1 (fun _ => .success [("a", "A")])
    (fun _ => true) 1 [("a", "b")] ⟨[], []⟩ (by decide) rfl

/-- Claim C3 counterexample: with a = {"k": "v"} and b = {"k": ""}, the
key "k" is present in b but maps to the empty value, so the claimed
characterization requires ("k", "v") to be in diff(a, b); the
first-stage diff of `extract_lang_diff` tests key absence only and
returns the empty table. -/
theorem first_stage_diff_ignores_empty_cex :
    extract_lang_diff [("k", "v")] [("k", "")] = [] ∧
    ¬ ((("k", "v") ∈ extract_lang_diff [("k", "v")] [("k", "")]) ↔
        (("k", "v") ∈ ([("k", "v")] : Table) ∧
          ("k" ∉ tableKeys [("k", "")] ∨
            lookupTable [("k", "")] "k" = some ""))) := by
  exact ⟨by decide, by decide⟩

/-- Claim C3 (amended): the second-stage diff (`find_untranslated`)
contains exactly the entries of `a` whose key is absent from `b` or maps
to an empty value in `b`; the first-stage diff (`extract_lang_diff`)
contains exactly the entries of `a` whose key is absent from `b` —
present-but-empty values in `b` are treated as translated there. -/
theorem diff_membership (a b : Table) (k v : String)
    (ha : (tableKeys a).Nodup) (hb : (tableKeys b).Nodup) :
    ((k, v) ∈ find_untranslated a b ↔
      ((k, v) ∈ a ∧ (k ∉ tableKeys b ∨ lookupTable b k = some ""))) ∧
    ((k, v) ∈ extract_lang_diff a b ↔ ((k, v) ∈ a ∧ k ∉ tableKeys b)) := by
  constructor
  · rw [mem_find_untranslated, lookupTable_eq_some_iff a k v ha]
    constructor
    · rintro ⟨hmem, hall⟩
      refine ⟨hmem, ?_⟩
      by_cases hkb : k ∈ tableKeys b
      · obtain ⟨p, hp, hpk⟩ := List.mem_map.mp hkb
        have hp2 : p.2 = "" := hall p hp hpk
        right
        have : (k, "") ∈ b := by
          have hpe : p = (k, "") := Prod.ext hpk hp2
          rwa [hpe] at hp
        exact (lookupTable_eq_some_iff b k "" hb).mpr this
      · exact Or.inl hkb
    · rintro ⟨hmem, hcond⟩
      refine ⟨hmem, fun p hp hpk => ?_⟩
      rcases hcond with hkb | hkb
      · exact absurd (hpk ▸ List.mem_map_of_mem Prod.fst hp) hkb
      · have hlp : lookupTable b p.1 = some p.2 :=
          (lookupTable_eq_some_iff b p.1 p.2 hb).mpr hp
        rw [hpk, hkb] at hlp
        exact (Option.some_inj.mp hlp).symm
  · rw [mem_extract_lang_diff, lookupTable_eq_some_iff a k v ha]

/-- Witness for C3 (amended) on concrete one-entry tables. -/
theorem diff_membership_witness :
    ((("k", "v") ∈ find_untranslated [("k", "v")] [("j", "x")] ↔
      (("k", "v") ∈ ([("k", "v")] : Table) ∧
        ("k" ∉ tableKeys [("j", "x")] ∨
          lookupTable [("j", "x")] "k" = some ""))) ∧
    (("k", "v") ∈ extract_lang_diff [("k", "v")] [("j", "x")] ↔
      (("k", "v") ∈ ([("k", "v")] : Table) ∧ "k" ∉ tableKeys [("j", "x")]))) :=
  diff_membership [("k", "v")] [("j", "x")] "k" "v" (by decide) (by decide)

/-- Claim C5 counterexample: publishing the batch {"a": "y"} against the
existing published table {"a": "x"} yields exactly {"a": "y"}; every key
of the result is already a key of the prior table (and of the batch), so
the published key set is a superset but not a *strict* superset. -/
theorem publish_not_strict_superset_cex :
    build_resource_pack true (some [("a", "y")]) (some (some [("a", "x")]))
        (.ok ()) (.ok ()) = .published [("a", "y")] ∧
    (∀ k ∈ tableKeys [("a", "y")], k ∈ tableKeys [("a", "x")]) ∧
    (∀ k ∈ tableKeys [("a", "y")], k ∈ tableKeys [("a", "y")]) := by
  exact ⟨by decide, by decide, by decide⟩

/-- Claim C5 (amended): the publisher computes merge(existing, new) with
the new batch winning on every colliding key, writes the merged table
sorted ascending by key, and the published key set is a superset (not in
general strict) of both the prior table's and the batch's key sets; the
spec's concrete example publishes as stated. -/
theorem publish_merge_sorted_superset (base newly : Table)
    (w1 w2 : Except String Unit)
    (hb : (tableKeys base).Nodup) (hn : (tableKeys newly).Nodup) :
    ∃ final : Table,
      build_resource_pack true (some newly) (some (some base)) w1 w2 =
        .published final ∧
      (∀ k, k ∈ tableKeys base ∨ k ∈ tableKeys newly → k ∈ tableKeys final) ∧
      (∀ k, k ∈ tableKeys newly →
        lookupTable final k = lookupTable newly k) ∧
      final.Pairwise keyLe ∧
      build_resource_pack true (some [("a.y", "世界")])
          (some (some [("a.x", "こんにちは")])) w1 w2 =
        .published [("a.x", "こんにちは"), ("a.y", "世界")] := by
  have hperm : (List.insertionSort keyLe (dictUpdate base newly)).Perm
      (dictUpdate base newly) := List.perm_insertionSort keyLe _
  have hndup : (tableKeys (dictUpdate base newly)).Nodup :=
    tableKeys_dictUpdate_nodup base newly hb
  have hnds : (tableKeys (List.insertionSort keyLe
      (dictUpdate base newly))).Nodup := by
    unfold tableKeys
    exact ((hperm.map Prod.fst).nodup_iff).mpr hndup
  have hself : dictOfPairs (List.insertionSort keyLe (dictUpdate base newly)) =
      List.insertionSort keyLe (dictUpdate base newly) :=
    dictOfPairs_eq_self _ hnds
  refine ⟨dictOfPairs (List.insertionSort keyLe (dictUpdate base newly)),
    rfl, ?_, ?_, ?_, rfl⟩
  · intro k hk
    rw [hself]
    show k ∈ tableKeys (List.insertionSort keyLe (dictUpdate base newly))
    unfold tableKeys
    rw [(hperm.map Prod.fst).mem_iff]
    exact (mem_tableKeys_dictUpdate base newly k).mpr hk
  · intro k hk
    rw [hself, lookupTable_perm _ _ hperm hnds k,
      lookupTable_dictUpdate_mem base newly k hn hk]
  · rw [hself]
    exact List.sorted_insertionSort keyLe (dictUpdate base newly)

/-- Witness for C5 (amended) at the spec's example tables. -/
theorem publish_merge_sorted_superset_witness :
    ∃ final : Table,
      build_resource_pack true (some [("a.y", "世界")])
          (some (some [("a.x", "こんにちは")])) (.ok ()) (.ok ()) =
        .published final ∧
      (∀ k, k ∈ tableKeys [("a.x", "こんにちは")] ∨
          k ∈ tableKeys [("a.y", "世界")] → k ∈ tableKeys final) ∧
      (∀ k, k ∈ tableKeys [("a.y", "世界")] →
        lookupTable final k = lookupTable [("a.y", "世界")] k) ∧
      final.Pairwise keyLe ∧
      build_resource_pack true (some [("a.y", "世界")])
          (some (some [("a.x", "こんにちは")])) (.ok ()) (.ok ()) =
        .published [("a.x", "こんにちは"), ("a.y", "世界")] :=
  publish_merge_sorted_superset [("a.x", "こんにちは")] [("a.y", "世界")]
    (.ok ()) (.ok ()) (by decide) (by decide)

/-- Claim C4: for `2 ≤ k ≤ numChunks`, running the translation stage
fully and then re-running it with `resume = k`, loading a checkpoint the
full run produced for chunk `k - 1`, yields the same final cumulative
translated table as the uninterrupted full run, given the collaborator
behaves the same per chunk in both runs (the same `oracle`); the
checkpoint-write pattern of either run is irrelevant. -/
theorem resume_matches_full_run (N : Nat) (data : Table)
    (oracle : Nat → GeminiResult) (w w2 : Nat → Bool)
    (prog : Nat → Option (Option Table)) (k : Nat) (c : Table)
    (hk2 : 2 ≤ k) (hkn : k ≤ (create_chunks N data).length)
    (hc : (k - 1, c) ∈
      (auto_translate N true (some data) none prog oracle w).checkpointList) :
    (auto_translate N true (some data) (some k)
        (fun j => if j = k - 1 then some (some c) else none) oracle
        w2).result =
      (auto_translate N true (some data) none prog oracle w).result := by
  cases data with
  | nil =>
    exfalso
    have h0 : (create_chunks N ([] : Table)).length = 0 := rfl
    omega
  | cons x xs =>
    rw [auto_translate_eq_run N x xs none prog oracle w] at hc
    simp only [TranslateOutcome.checkpointList] at hc
    rw [auto_translate_eq_run N x xs (some k) _ oracle w2,
      auto_translate_eq_run N x xs none prog oracle w]
    simp only [TranslateOutcome.result, Option.some_inj]
    rw [resumeInit_loaded k c _ (by omega) (by simp), resumeInit_none] at *
    have hmem := runChunks_checkpoints_mem oracle w 1
      (create_chunks N (x :: xs)) 1 ⟨[], []⟩ (k - 1) c (Nat.le_refl 1) hc
    rcases hmem with hin | ⟨h1, h2, hcval⟩
    · simp at hin
    · have hk11 : k - 1 + 1 - 1 = k - 1 := by omega
      rw [hk11] at hcval
      have hlen : ((create_chunks N (x :: xs)).take (k - 1)).length = k - 1 := by
        rw [List.length_take]
        omega
      have hk1 : 1 + (k - 1) = k := by omega
      have hefflist : effList oracle 1 (create_chunks N (x :: xs)) =
          effList oracle 1 ((create_chunks N (x :: xs)).take (k - 1)) ++
            effList oracle k ((create_chunks N (x :: xs)).drop (k - 1)) := by
        conv_lhs => rw [← List.take_append_drop (k - 1)
          (create_chunks N (x :: xs))]
        rw [effList_append, hlen, hk1]
      calc (runChunks oracle w2 (c, k).2 1 (create_chunks N (x :: xs))
            ⟨(c, k).1, []⟩).cumulative
          = (runChunks oracle w2 k 1
              ((create_chunks N (x :: xs)).take (k - 1) ++
                (create_chunks N (x :: xs)).drop (k - 1))
              ⟨c, []⟩).cumulative := by
            rw [List.take_append_drop]
        _ = (runChunks oracle w2 k
              (1 + ((create_chunks N (x :: xs)).take (k - 1)).length)
              ((create_chunks N (x :: xs)).drop (k - 1))
              (runChunks oracle w2 k 1
                ((create_chunks N (x :: xs)).take (k - 1))
                ⟨c, []⟩)).cumulative := by
            rw [runChunks_append]
        _ = (runChunks oracle w2 k k
              ((create_chunks N (x :: xs)).drop (k - 1))
              ⟨c, []⟩).cumulative := by
            rw [runChunks_skipped oracle w2 k _ 1 ⟨c, []⟩
              (by rw [hlen]; omega), hlen, hk1]
        _ = (effList oracle k
              ((create_chunks N (x :: xs)).drop (k - 1))).foldl dictUpdate c :=
            runChunks_cumulative oracle w2 k _ k ⟨c, []⟩ (Nat.le_refl k)
        _ = (effList oracle k
              ((create_chunks N (x :: xs)).drop (k - 1))).foldl dictUpdate
              ((effList oracle 1
                ((create_chunks N (x :: xs)).take (k - 1))).foldl
                  dictUpdate []) := by
            conv_lhs => rw [hcval]
        _ = (effList oracle 1 (create_chunks N (x :: xs))).foldl
              dictUpdate [] := by
            rw [hefflist, List.foldl_append]
        _ = (runChunks oracle w (([] : Table), 1).2 1
              (create_chunks N (x :: xs))
              ⟨(([] : Table), 1).1, []⟩).cumulative :=
            (runChunks_cumulative oracle w 1 _ 1 ⟨[], []⟩
              (Nat.le_refl 1)).symm

/-- Witness for C4: two one-entry chunks, a collaborator that always
succeeds, resume from `k = 2` with the checkpoint the full run wrote for
chunk 1. -/
theorem resume_matches_full_run_witness :
    (auto_translate 1 true (some [("k1", "v1"), ("k2", "v2")]) (some 2)
        (fun j => if j = 2 - 1 then some (some [("k1", "T1")]) else none)
        (fun i => if i = 1 then .success [("k1", "T1")]
          else .success [("k2", "T2")])
        (fun _ => true)).result =
      (auto_translate 1 true (some [("k1", "v1"), ("k2", "v2")]) none
        (fun _ => none)
        (fun i => if i = 1 then .success [("k1", "T1")]
          else .success [("k2", "T2")])
        (fun _ => true)).result :=
  resume_matches_full_run 1 [("k1", "v1"), ("k2", "v2")]
    (fun i => if i = 1 then .success [("k1", "T1")]
      else .success [("k2", "T2")])
    (fun _ => true) (fun _ => true) (fun _ => none) 2 [("k1", "T1")]
    (by decide) (by decide) (by decide)
